import Mathlib

/-!
# Verification of the intrusive singly-linked list (`src/lib.rs`)

Shallow embedding of the repository's single source file, a scoped
intrusive singly-linked list:

* `IntrusiveListNode` embeds `struct IntrusiveListNode<T> { value, next }`.
  The Rust node stores `value: NonNull<T>` and
  `next: Option<NonNull<IntrusiveListNode<T>>>`; in the embedding a
  reference to a value is the value itself, and a reference to the next
  node is the next node itself, so a pointer chain becomes an inductive
  chain.
* `IntrusiveList` embeds `struct IntrusiveList<T> { head }`.
* `IntrusiveList.with_cons` embeds `IntrusiveList::with_cons`.  The Rust
  continuation `cont: impl FnOnce(&mut Self) -> O` receives the list by
  mutable reference and may panic; the embedding passes the list state
  explicitly and returns `Except ε O`, where `Except.error` models an
  unwinding panic.  The statements of `with_cons` that follow the call
  `cont(self)` run only when `cont` returns normally, so the embedding
  applies the restore `self.head = new_node.next` only on the `Except.ok`
  branch; on the `Except.error` branch the list keeps whatever state the
  continuation left behind, exactly as the caller's `IntrusiveList`
  does while a panic unwinds through `with_cons`.
* `Iter`/`IterMut` and their `next` functions embed the two cursor types;
  `Dbg.fmt` embeds the `Debug` implementation of the `Dbg` wrapper.

A second model (`PState`, further down) makes node addresses explicit in
order to state the finiteness/acyclicity invariant of the pointer chain,
which the inductive representation above keeps implicit.
-/

set_option autoImplicit false

/-- Embeds `struct IntrusiveListNode<T> { value: NonNull<T>,
next: Option<NonNull<IntrusiveListNode<T>>> }` (src/lib.rs:7-10).
The non-owning pointers are replaced by the pointees themselves. -/
inductive IntrusiveListNode (α : Type) : Type where
  | mk (value : α) (next : Option (IntrusiveListNode α))

namespace IntrusiveListNode

/-- Field access `node.value` (dereferencing the `NonNull<T>`). -/
def value {α : Type} : IntrusiveListNode α → α
  | .mk v _ => v

/-- Field access `node.next`. -/
def next {α : Type} : IntrusiveListNode α → Option (IntrusiveListNode α)
  | .mk _ n => n

@[simp] theorem value_mk {α : Type} (v : α) (n : Option (IntrusiveListNode α)) :
    (IntrusiveListNode.mk v n).value = v := rfl

@[simp] theorem next_mk {α : Type} (v : α) (n : Option (IntrusiveListNode α)) :
    (IntrusiveListNode.mk v n).next = n := rfl

/-- The sequence of values stored in the chain starting at one node, in
head-to-tail order. -/
def chain {α : Type} : IntrusiveListNode α → List α
  | .mk v none => [v]
  | .mk v (some n) => v :: n.chain

end IntrusiveListNode

/-- Embeds `pub struct IntrusiveList<T> { head: Option<NonNull<IntrusiveListNode<T>>> }`
(src/lib.rs:12-14). -/
structure IntrusiveList (α : Type) : Type where
  head : Option (IntrusiveListNode α)

/-- The sequence of values stored in the chain hanging off an optional
node pointer, in head-to-tail order.  This is the abstraction function
used throughout: every traversal in the source walks this chain. -/
def chainToList {α : Type} : Option (IntrusiveListNode α) → List α
  | none => []
  | some n => n.chain

@[simp] theorem chainToList_none {α : Type} : chainToList (α := α) none = [] := rfl

@[simp] theorem chainToList_some {α : Type} (v : α) (n : Option (IntrusiveListNode α)) :
    chainToList (some (.mk v n)) = v :: chainToList n := by
  cases n <;> rfl

namespace IntrusiveList

/-- Embeds `impl<T> Default for IntrusiveList<T>`: `Self { head: None }`
(src/lib.rs:16-20). -/
def default {α : Type} : IntrusiveList α :=
  { head := none }

/-- Embeds `IntrusiveList::with_cons` (src/lib.rs:52-65):

```
let mut new_node = IntrusiveListNode { value, next: self.head.take() };
self.head = Some(&mut new_node);
let result = cont(self);
self.head = new_node.next;
result
```

`cont` returns the list state it leaves behind together with
`Except.ok result` for a normal return or `Except.error e` for a panic
that unwinds out of the continuation.  The statements of `with_cons`
that follow the call `cont(self)` run only when `cont` returns
normally, so the restore `self.head = new_node.next` is applied only on
the `Except.ok` branch; on the `Except.error` branch the list keeps the
state the continuation left behind, exactly as the caller's
`IntrusiveList` does while a panic unwinds through `with_cons`.  (The
list struct has no field other than `head`, so reassigning `head`
determines the whole resulting state.) -/
def with_cons {α ε O : Type} (l : IntrusiveList α) (value : α)
    (cont : IntrusiveList α → IntrusiveList α × Except ε O) :
    IntrusiveList α × Except ε O :=
  let new_node : IntrusiveListNode α := .mk value l.head
  let pushed : IntrusiveList α := { head := some new_node }
  match cont pushed with
  | (_, Except.ok result) => ({ head := new_node.next }, Except.ok result)
  | (l_unwound, Except.error e) => (l_unwound, Except.error e)

/-- Embeds `IntrusiveList::head` (src/lib.rs:67-70):
`self.head.map(|node| node.value.as_ref())`.  Named `head_val` because
the struct field is already called `head`. -/
def head_val {α : Type} (l : IntrusiveList α) : Option α :=
  l.head.map IntrusiveListNode.value

/-- Embeds `IntrusiveList::head_mut` (src/lib.rs:72-75):
`self.head.map(|mut node| node.value.as_mut())`.  The embedding returns
the referenced value, like `head_val`; the `&mut T`/`&T` distinction is
a type-level fact with no value-level content. -/
def head_mut {α : Type} (l : IntrusiveList α) : Option α :=
  l.head.map IntrusiveListNode.value

end IntrusiveList

/-- Embeds `pub struct Iter<'a, T> { current, _phantom }` (src/lib.rs:104-107). -/
structure Iter (α : Type) : Type where
  current : Option (IntrusiveListNode α)

/-- Embeds `pub struct IterMut<'a, T> { current, _phantom }` (src/lib.rs:122-125). -/
structure IterMut (α : Type) : Type where
  current : Option (IntrusiveListNode α)

namespace Iter

/-- Embeds `<Iter as Iterator>::next` (src/lib.rs:109-118):

```
let current = self.current.take()?;
let value_ref = current.value;
self.current = current.next;
Some(value_ref)
```

Returns the yielded item together with the cursor's new state
(`self.current.take()` leaves `None` behind on the early-return path). -/
def next {α : Type} (it : Iter α) : Option α × Iter α :=
  match it.current with
  | none => (none, { current := none })
  | some current => (some current.value, { current := current.next })

/-- The items `Iter::next` yields from one node onward (helper for
`Iter.collect`). -/
def collectNode {α : Type} : IntrusiveListNode α → List α
  | .mk v none => [v]
  | .mk v (some n) => v :: collectNode n

/-- Driving the cursor to exhaustion: the list of items yielded by
repeated `next` calls until the first `None`.  (`Iter.collect_next_step`
below proves that this is exactly what iterating `Iter.next` yields.) -/
def collect {α : Type} (it : Iter α) : List α :=
  match it.current with
  | none => []
  | some n => collectNode n

@[simp] theorem collect_none {α : Type} : collect (α := α) { current := none } = [] := rfl

@[simp] theorem collect_some {α : Type} (v : α) (n : Option (IntrusiveListNode α)) :
    collect { current := some (.mk v n) } = v :: collect { current := n } := by
  cases n <;> rfl

/-- `collect` is the drive of `next`: the first yielded item followed by
whatever the advanced cursor yields. -/
theorem collect_next_step {α : Type} (it : Iter α) :
    collect it =
      match next it with
      | (none, _) => []
      | (some v, it') => v :: collect it' := by
  obtain ⟨_ | ⟨v, n⟩⟩ := it
  · rfl
  · cases n <;> rfl

end Iter

namespace IterMut

/-- Embeds `<IterMut as Iterator>::next` (src/lib.rs:126-135); identical
control flow to `Iter::next`, yielding through `value.as_mut()` instead
of `value.as_ref()`. -/
def next {α : Type} (it : IterMut α) : Option α × IterMut α :=
  match it.current with
  | none => (none, { current := none })
  | some current => (some current.value, { current := current.next })

/-- The items `IterMut::next` yields from one node onward. -/
def collectNode {α : Type} : IntrusiveListNode α → List α
  | .mk v none => [v]
  | .mk v (some n) => v :: collectNode n

/-- Driving the exclusive cursor to exhaustion. -/
def collect {α : Type} (it : IterMut α) : List α :=
  match it.current with
  | none => []
  | some n => collectNode n

@[simp] theorem collectMut_none {α : Type} : collect (α := α) { current := none } = [] := rfl

@[simp] theorem collectMut_some {α : Type} (v : α) (n : Option (IntrusiveListNode α)) :
    collect { current := some (.mk v n) } = v :: collect { current := n } := by
  cases n <;> rfl

/-- `collect` is the drive of `next` for the exclusive cursor. -/
theorem collectMut_next_step {α : Type} (it : IterMut α) :
    collect it =
      match next it with
      | (none, _) => []
      | (some v, it') => v :: collect it' := by
  obtain ⟨_ | ⟨v, n⟩⟩ := it
  · rfl
  · cases n <;> rfl

end IterMut

namespace IntrusiveList

/-- Embeds `IntrusiveList::iter` (src/lib.rs:81-86):
`Iter { current: self.head, _phantom }`.  The `&mut self` receiver is
exclusivity bookkeeping only; the body reads `self.head` and writes
nothing. -/
def iter {α : Type} (l : IntrusiveList α) : Iter α :=
  { current := l.head }

/-- Embeds `IntrusiveList::iter_mut` (src/lib.rs:88-93). -/
def iter_mut {α : Type} (l : IntrusiveList α) : IterMut α :=
  { current := l.head }

end IntrusiveList

/-- Embeds `pub struct Dbg<'a, T>(&'a mut IntrusiveList<T>)` (src/lib.rs:24). -/
structure Dbg (α : Type) : Type where
  list : IntrusiveList α

/-- Embeds `IntrusiveList::debug` (src/lib.rs:95-97): `Dbg(self)`. -/
def IntrusiveList.debug {α : Type} (l : IntrusiveList α) : Dbg α :=
  { list := l }

/-- The `builder.entry(..)` calls the `while let Some(curr) = current`
loop of `Dbg::fmt` makes from one node onward (src/lib.rs:29-33). -/
def dbgEntriesNode {α : Type} (fval : α → String) : IntrusiveListNode α → List String
  | .mk v none => [fval v]
  | .mk v (some n) => fval v :: dbgEntriesNode fval n

/-- The full entry sequence of the `Dbg::fmt` loop, walking `next` links
from the head. -/
def dbgEntries {α : Type} (fval : α → String) :
    Option (IntrusiveListNode α) → List String
  | none => []
  | some n => dbgEntriesNode fval n

@[simp] theorem dbgEntries_none {α : Type} (fval : α → String) :
    dbgEntries fval none = [] := rfl

@[simp] theorem dbgEntries_some {α : Type} (fval : α → String)
    (v : α) (n : Option (IntrusiveListNode α)) :
    dbgEntries fval (some (.mk v n)) = fval v :: dbgEntries fval n := by
  cases n <;> rfl

/-- How `Formatter::debug_list().entry(..)*.finish()` renders a sequence
of entries in non-alternate mode: first entry bare, later entries
prefixed by `", "`, the whole wrapped in square brackets (the brackets
are added by `Dbg.fmt`). -/
def debugListRender : List String → String
  | [] => ""
  | [e] => e
  | e :: rest => e ++ ", " ++ debugListRender rest

/-- Embeds `<Dbg as Debug>::fmt` (src/lib.rs:26-37), specialised to the
string each `entry` call contributes: collect one rendered entry per
node of the chain, then `finish` the bracketed list.  `fval` stands for
the `Debug` rendering of a single value.  The function takes the list
state and returns only a `String`: `fmt` takes `&self` and performs no
mutation. -/
def Dbg.fmt {α : Type} (d : Dbg α) (fval : α → String) : String :=
  "[" ++ debugListRender (dbgEntries fval d.list.head) ++ "]"

/-!
## Address-level model of the chain

The inductive `IntrusiveListNode` cannot express the property the source
relies on for its `unsafe` dereferences: that following raw `next`
pointers from `head` always reaches `None` after finitely many distinct
nodes.  `PState` makes the addresses explicit: memory maps an address
(the location of a `with_cons` frame's `new_node`) to the node stored
there, `head` holds the address `IntrusiveList::head` points to, and
`fresh` is an allocation bound for the stack slots used so far.
`pushOp` is the first half of `with_cons` (lines 54-59: build `new_node`
with `next = self.head.take()` in a fresh stack slot and install its
address as head) and `popOp` is the second half (line 62:
`self.head = new_node.next`, after which the frame's slot dies).
-/

/-- A node as laid out in a `with_cons` frame: the value and the address
of the next node (`None` at the end of the chain). -/
structure PNode (α : Type) : Type where
  value : α
  next : Option Nat

/-- Address-level list state: live node slots, the head address, and an
upper bound on the addresses handed out so far. -/
structure PState (α : Type) : Type where
  mem : Nat → Option (PNode α)
  head : Option Nat
  fresh : Nat

/-- The state of a list obtained from `Default::default()`: no live
node, no head. -/
def PState.empty {α : Type} : PState α :=
  { mem := fun _ => none, head := none, fresh := 0 }

/-- First half of `with_cons`: materialise
`IntrusiveListNode { value, next: self.head.take() }` in a fresh slot
and make that slot the head. -/
def pushOp {α : Type} (s : PState α) (v : α) : PState α :=
  { mem := fun a => if a = s.fresh then some { value := v, next := s.head } else s.mem a
    head := some s.fresh
    fresh := s.fresh + 1 }

/-- Second half of `with_cons`: `self.head = new_node.next`, after which
the frame's node slot is dead and must not be reachable any more. -/
def popOp {α : Type} (s : PState α) : PState α :=
  match s.head with
  | none => s
  | some a =>
    { mem := fun b => if b = a then none else s.mem b
      head := match s.mem a with
              | some n => n.next
              | none => none
      fresh := s.fresh }

/-- `Chain m h as`: starting from the optional address `h` and following
`next` links through memory `m` visits exactly the addresses `as`, every
visited slot is live, no address repeats, and the walk ends at `none`.
This is simultaneously finiteness (the list `as` is finite), acyclicity
(each address is absent from its own tail) and termination in the empty
link (the `nil` base case). -/
inductive Chain {α : Type} (m : Nat → Option (PNode α)) : Option Nat → List Nat → Prop
  | nil : Chain m none []
  | cons {a : Nat} {n : PNode α} {as : List Nat} :
      m a = some n → Chain m n.next as → a ∉ as → Chain m (some a) (a :: as)

/-- The structural invariant of the list: the chain from `head` is
finite, acyclic, ends in the empty link, and touches only allocated
slots. -/
def ChainInv {α : Type} (s : PState α) : Prop :=
  ∃ as : List Nat, Chain s.mem s.head as ∧ ∀ a ∈ as, a < s.fresh

/-- States reachable from the empty list by the two halves of
`with_cons`.  `head`, `head_mut`, `iter`, `iter_mut` and `debug` do not
write to the list, so they do not appear: they leave the state fixed. -/
inductive Reach {α : Type} : PState α → Prop
  | empty : Reach PState.empty
  | push (s : PState α) (v : α) : Reach s → Reach (pushOp s v)
  | pop (s : PState α) : Reach s → Reach (popOp s)

/-- A chain only inspects memory at the addresses it visits. -/
theorem Chain.congr {α : Type} {m m' : Nat → Option (PNode α)} {h : Option Nat}
    {as : List Nat} (hc : Chain m h as) (agree : ∀ a ∈ as, m' a = m a) :
    Chain m' h as := by
  induction hc with
  | nil => exact Chain.nil
  | cons hm hrest hnotin ih =>
    refine Chain.cons ?_ (ih fun a ha => agree a (List.mem_cons_of_mem _ ha)) hnotin
    rw [agree _ (List.mem_cons_self _ _), hm]

/-- The empty list satisfies the structural invariant. -/
theorem chainInv_empty {α : Type} : ChainInv (PState.empty (α := α)) :=
  ⟨[], Chain.nil, by simp⟩

/-- The push half of `with_cons` preserves the structural invariant: the
fresh node is not in the old chain, so prepending it keeps the chain
finite and acyclic. -/
theorem chainInv_pushOp {α : Type} (s : PState α) (v : α) (hs : ChainInv s) :
    ChainInv (pushOp s v) := by
  obtain ⟨as, hch, hlt⟩ := hs
  refine ⟨s.fresh :: as, ?_, ?_⟩
  · refine Chain.cons (n := { value := v, next := s.head }) (by simp [pushOp]) ?_ ?_
    · exact hch.congr fun a ha => by
        simp [pushOp, Nat.ne_of_lt (hlt a ha)]
    · exact fun hmem => Nat.lt_irrefl _ (hlt _ hmem)
  · intro a ha
    rcases List.mem_cons.mp ha with rfl | ha
    · exact Nat.lt_succ_self _
    · exact Nat.lt_succ_of_lt (hlt a ha)

/-- The pop half of `with_cons` preserves the structural invariant:
unlinking the head and killing its slot leaves the tail chain intact,
because acyclicity says the head's address does not occur in the tail. -/
theorem chainInv_popOp {α : Type} (s : PState α) (hs : ChainInv s) :
    ChainInv (popOp s) := by
  obtain ⟨as, hch, hlt⟩ := hs
  cases hh : s.head with
  | none =>
    have hpop : popOp s = s := by simp [popOp, hh]
    rw [hpop]
    exact ⟨as, hch, hlt⟩
  | some a =>
    rw [hh] at hch
    cases hch with
    | cons hm hrest hnotin =>
      rename_i n as'
      have hpop : popOp s =
          { mem := fun b => if b = a then none else s.mem b
            head := n.next
            fresh := s.fresh } := by
        simp [popOp, hh, hm]
      rw [hpop]
      refine ⟨as', ?_, fun b hb => hlt b (List.mem_cons_of_mem _ hb)⟩
      exact hrest.congr fun b hb => by
        have hba : b ≠ a := fun h => hnotin (h ▸ hb)
        simp [hba]

/-!
## Claim-level developments

`nestedCons` strings one `with_cons` activation per value of `vs`
(head of `vs` outermost), running `inner` in the innermost scope: the
"strictly nested sequence of pushes" shape of the spec's scenarios.
-/

/-- Nesting `with_cons` pushes for each value of `vs` in order, with the
head of `vs` outermost, and running `inner` inside the innermost
activation. -/
def nestedCons {α ε O : Type} (vs : List α)
    (inner : IntrusiveList α → IntrusiveList α × Except ε O)
    (l : IntrusiveList α) : IntrusiveList α × Except ε O :=
  match vs with
  | [] => inner l
  | v :: rest => l.with_cons v (nestedCons rest inner)

/-- Inside the innermost of a nest of `with_cons` pushes, a full
traversal sees the pushed values newest-first in front of the original
chain; on the way out each level's pop restores the original list, so
the nest as a whole returns the caller's list unchanged together with
the observed traversal. -/
theorem nestedCons_collect {α : Type} (vs : List α) (l : IntrusiveList α) :
    nestedCons vs
        (fun li => (li, (Except.ok (Iter.collect li.iter) : Except Unit (List α)))) l =
      (l, Except.ok (vs.reverse ++ Iter.collect l.iter)) := by
  induction vs generalizing l with
  | nil => simp [nestedCons]
  | cons v rest ih =>
    obtain ⟨hd⟩ := l
    simp only [nestedCons]
    rw [IntrusiveList.with_cons]
    simp only [ih]
    simp [IntrusiveList.iter]

/-- The two cursors yield the same values from any node onward. -/
theorem collectNode_agree {α : Type} : ∀ n : IntrusiveListNode α,
    IterMut.collectNode n = Iter.collectNode n
  | .mk _ none => rfl
  | .mk v (some n) => by
    simp only [IterMut.collectNode, Iter.collectNode]
    rw [collectNode_agree n]

/-!
## The claims
-/

/-- C1: the claim states that the pop/unlink step of `with_cons` runs on
every exit path, the propagation of a panic out of the continuation
included.  In the source the restore `self.head = new_node.next` is an
ordinary statement after `cont(self)` with no scope guard (no `Drop`
bearing value, no `catch_unwind`), so an unwinding continuation skips
it.  Evaluating the embedding at the failing input — an empty list,
value `0`, and a continuation that panics immediately — leaves the
pushed node as the head instead of the pre-call empty head. -/
theorem c1_pop_skipped_on_panic :
    (IntrusiveList.with_cons (IntrusiveList.default : IntrusiveList Nat) 0
        (fun li => (li, (Except.error () : Except Unit Unit)))).1.head =
      some (IntrusiveListNode.mk 0 none) ∧
    (IntrusiveList.default : IntrusiveList Nat).head = none ∧
    (IntrusiveList.with_cons (IntrusiveList.default : IntrusiveList Nat) 0
        (fun li => (li, (Except.error () : Except Unit Unit)))).1.head ≠
      (IntrusiveList.default : IntrusiveList Nat).head := by
  refine ⟨rfl, rfl, fun h => ?_⟩
  exact Option.noConfusion h

/-- C2: for every `n ≥ 1`, pushing `v1` (outermost) through `vn`
(innermost) in strictly nested fashion onto the empty list and taking a
full traversal via `iter` inside the innermost continuation yields
exactly `[vn, …, v1]` — a finite list, so the traversal terminates —
and every level then pops, returning the empty list. -/
theorem c2_nested_traversal {α : Type} (vs : List α) (hn : 1 ≤ vs.length) :
    nestedCons vs
        (fun li => (li, (Except.ok (Iter.collect li.iter) : Except Unit (List α))))
        IntrusiveList.default =
      (IntrusiveList.default, Except.ok vs.reverse) := by
  rw [nestedCons_collect]
  simp [IntrusiveList.default, IntrusiveList.iter]

/-- Witness for `c2_nested_traversal`: three nested pushes of `1`, `2`,
`3` observe the traversal `[3, 2, 1]` innermost. -/
theorem c2_nested_traversal_witness :
    1 ≤ ([1, 2, 3] : List Nat).length ∧
    nestedCons [1, 2, 3]
        (fun li => (li, (Except.ok (Iter.collect li.iter) : Except Unit (List Nat))))
        IntrusiveList.default =
      (IntrusiveList.default, Except.ok [3, 2, 1]) :=
  ⟨by decide, c2_nested_traversal [1, 2, 3] (by decide)⟩

/-- C3: the start-empty scenario.  Inside `with_cons v1` the head is
`v1` and the traversal `[v1]`; inside the nested `with_cons v2` the
head is `v2` and the traversal `[v2, v1]`; after the inner call returns
the head is `v1` again; after the outer call returns the list is empty:
`head()` is `none` and a traversal yields nothing. -/
theorem c3_scenario {α : Type} (v1 v2 : α) :
    IntrusiveList.with_cons (IntrusiveList.default : IntrusiveList α) v1 (fun l1 =>
      match l1.with_cons v2 (fun l2 =>
          (l2, (Except.ok (l2.head_val, Iter.collect l2.iter)
            : Except Unit (Option α × List α)))) with
      | (l1', Except.ok inner) =>
          (l1', Except.ok ((l1.head_val, Iter.collect l1.iter), inner, l1'.head_val))
      | (l1', Except.error e) => (l1', Except.error e)) =
      ({ head := none },
        Except.ok ((some v1, [v1]), (some v2, [v2, v1]), some v1)) ∧
    IntrusiveList.head_val { head := (none : Option (IntrusiveListNode α)) } = none ∧
    Iter.collect (IntrusiveList.iter { head := (none : Option (IntrusiveListNode α)) }) = [] :=
  ⟨rfl, rfl, rfl⟩

/-- C4: on a list whose head is empty — no active push — `head()` and
`head_mut()` both return `none`. -/
theorem c4_head_empty {α : Type} (l : IntrusiveList α) (h : l.head = none) :
    l.head_val = none ∧ l.head_mut = none := by
  simp [IntrusiveList.head_val, IntrusiveList.head_mut, h]

/-- Witness for `c4_head_empty` at the freshly created list. -/
theorem c4_head_empty_witness :
    (IntrusiveList.default : IntrusiveList Nat).head = none ∧
    ((IntrusiveList.default : IntrusiveList Nat).head_val = none ∧
      (IntrusiveList.default : IntrusiveList Nat).head_mut = none) :=
  ⟨rfl, c4_head_empty IntrusiveList.default rfl⟩

/-- C5: for either cursor variant, advancing at the empty position
yields nothing and the cursor is terminal — and the terminal cursor
pattern `current = none` reproduces itself, so it stays terminal on all
subsequent advances; advancing at a node yields exactly that node's
value and moves `current` to the node's `next` link; the advanced
cursor's remaining yields are the strict tail of the current cursor's
yields, so no node is ever revisited. -/
theorem c5_cursor_advance {α : Type} (it : Iter α) (itm : IterMut α) :
    ((it.next).1 = (Iter.collect it).head? ∧
      Iter.collect (it.next).2 = (Iter.collect it).tail ∧
      (it.next).2.current = it.current.bind IntrusiveListNode.next ∧
      (Iter.next { current := none } : Option α × Iter α) = (none, { current := none })) ∧
    ((itm.next).1 = (IterMut.collect itm).head? ∧
      IterMut.collect (itm.next).2 = (IterMut.collect itm).tail ∧
      (itm.next).2.current = itm.current.bind IntrusiveListNode.next ∧
      (IterMut.next { current := none } : Option α × IterMut α) =
        (none, { current := none })) := by
  obtain ⟨cur⟩ := it
  obtain ⟨curm⟩ := itm
  constructor
  · rcases cur with _ | ⟨v, n⟩ <;> simp [Iter.next]
  · rcases curm with _ | ⟨v, n⟩ <;> simp [IterMut.next]

/-- C6: a traversal over the empty list yields no elements, and the
sequence a cursor yields is a function of the list's chain alone, so
creating the cursor twice over an unmodified list — or over any two
lists in the same state — yields the same sequence both times. -/
theorem c6_traversal_restartable {α : Type} (l l' : IntrusiveList α)
    (h : l.head = l'.head) :
    Iter.collect (IntrusiveList.iter (IntrusiveList.default : IntrusiveList α)) = [] ∧
    Iter.collect l.iter = Iter.collect l'.iter :=
  ⟨rfl, by rw [IntrusiveList.iter, IntrusiveList.iter, h]⟩

/-- Witness for `c6_traversal_restartable`: two cursors over one
unmodified one-node list. -/
theorem c6_traversal_restartable_witness :
    ({ head := some (.mk 7 none) } : IntrusiveList Nat).head =
      ({ head := some (.mk 7 none) } : IntrusiveList Nat).head ∧
    (Iter.collect (IntrusiveList.iter (IntrusiveList.default : IntrusiveList Nat)) = [] ∧
      Iter.collect ({ head := some (.mk 7 none) } : IntrusiveList Nat).iter =
        Iter.collect ({ head := some (.mk 7 none) } : IntrusiveList Nat).iter) :=
  ⟨rfl, c6_traversal_restartable _ _ rfl⟩

/-- C7: with `a`, then `b`, then `c` pushed and all three active, the
debug adapter renders exactly `[c, b, a]` — the chain's values in
head-to-tail order, most recently pushed first, bracketed and
comma-separated.  Formatting changes nothing: the continuation that
formatted returns its list with head and chain intact (the full
three-node chain is still observed after formatting), and every pop
then runs as usual, ending on the empty list. -/
theorem c7_debug_render {α : Type} (fval : α → String) (a b c : α) :
    IntrusiveList.with_cons (IntrusiveList.default : IntrusiveList α) a (fun l1 =>
      l1.with_cons b (fun l2 =>
        l2.with_cons c (fun l3 =>
          (l3, (Except.ok (Dbg.fmt l3.debug fval, l3.head)
            : Except Unit (String × Option (IntrusiveListNode α))))))) =
      ({ head := none },
        Except.ok ("[" ++ fval c ++ ", " ++ fval b ++ ", " ++ fval a ++ "]",
          some (.mk c (some (.mk b (some (.mk a none))))))) := by
  simp [IntrusiveList.with_cons, IntrusiveList.default, IntrusiveList.debug, Dbg.fmt,
    dbgEntries, dbgEntriesNode, debugListRender, String.append_assoc]

/-- C8: every list state reachable from the empty list through the push
and pop halves of `with_cons` (the remaining operations — `head`,
`head_mut`, `iter`, `iter_mut`, `debug` — write nothing and leave the
state fixed) has a head chain that is finite, acyclic and terminates in
the empty link: the addresses it visits form a finite duplicate-free
list whose walk ends at `none`. -/
theorem c8_chain_finite_acyclic {α : Type} (s : PState α) (h : Reach s) :
    ChainInv s := by
  induction h with
  | empty => exact chainInv_empty
  | push s v _ ih => exact chainInv_pushOp s v ih
  | pop s _ ih => exact chainInv_popOp s ih

/-- Witness for `c8_chain_finite_acyclic`: the state after one push onto
the empty list. -/
theorem c8_chain_finite_acyclic_witness :
    ChainInv (pushOp (@PState.empty Nat) 0) :=
  c8_chain_finite_acyclic _ (Reach.push _ 0 Reach.empty)

/-- C9: when the continuation returns normally, `with_cons` hands its
result back unchanged — the cons/pop protocol is transparent to the
continuation's return value. -/
theorem c9_with_cons_transparent {α ε O : Type} (l : IntrusiveList α) (v : α)
    (cont : IntrusiveList α → IntrusiveList α × Except ε O) (o : O)
    (h : (cont { head := some (.mk v l.head) }).2 = Except.ok o) :
    (l.with_cons v cont).2 = Except.ok o := by
  simp only [IntrusiveList.with_cons]
  rcases hc : cont { head := some (IntrusiveListNode.mk v l.head) } with ⟨l2, r⟩
  have h2 : r = Except.ok o := by rw [hc] at h; exact h
  subst h2
  rfl

/-- Witness for `c9_with_cons_transparent` at a concrete continuation
returning `42`. -/
theorem c9_with_cons_transparent_witness :
    ((fun li : IntrusiveList Nat => (li, (Except.ok 42 : Except Unit Nat)))
        { head := some (.mk 5 (IntrusiveList.default : IntrusiveList Nat).head) }).2 =
      Except.ok 42 ∧
    (IntrusiveList.with_cons (IntrusiveList.default : IntrusiveList Nat) 5
        (fun li => (li, (Except.ok 42 : Except Unit Nat)))).2 = Except.ok 42 :=
  ⟨rfl, c9_with_cons_transparent IntrusiveList.default 5 _ 42 rfl⟩

/-- C10: the read-only and the exclusive cursor start at the same node
(the list's head), advance through the same nodes in the same order —
each step yields the same item and moves to the same position — and so
yield the same sequence of values over any list state. -/
theorem c10_iter_iterMut_agree {α : Type} (l : IntrusiveList α) :
    (l.iter_mut).current = (l.iter).current ∧
    IterMut.collect l.iter_mut = Iter.collect l.iter ∧
    ∀ cur : Option (IntrusiveListNode α),
      (IterMut.next { current := cur }).1 = (Iter.next { current := cur }).1 ∧
      (IterMut.next { current := cur }).2.current =
        (Iter.next { current := cur }).2.current := by
  refine ⟨rfl, ?_, ?_⟩
  · rcases l with ⟨_ | n⟩
    · rfl
    · exact collectNode_agree n
  · intro cur
    rcases cur with _ | n <;> simp [Iter.next, IterMut.next]
